import Mathlib

/-!
Verification of the incremental extraction engine of a Facebook Ads tap,
shallowly embedded from the Python source (tap_facebook/streams.py and
tap_facebook/client.py).

Modelling conventions:
* Calendar dates and naive datetimes are modelled as integers counting
  days (`Int`); `timedelta(days=n)` is `n` and `timedelta(weeks=4)` is
  `28`.
* ISO-8601 date strings compare chronologically exactly as their parsed
  values do, so bookmark values are carried as parsed dates (`Int`); the
  `parser.isoparse` / `isoformat` round-trip is the identity in this
  model.  ISO date strings are never empty, so a bookmark value is falsy
  exactly when it is `None`, modelled by `Option Int`.
* The singer state dict is modelled by its `bookmarks` mapping as an
  association list `tap_stream_id -> account_id -> account record`; the
  Python truthiness test `if not state` holds exactly for the empty
  mapping.
-/

/-- Association-list lookup, modelling Python `dict.get(k)`. -/
def lookupA {β : Type} (k : String) : List (String × β) → Option β
  | [] => none
  | (k1, v) :: rest => if k1 = k then some v else lookupA k rest

/-- Association-list update, modelling Python `dict[k] = v`. -/
def setA {β : Type} (k : String) (v : β) : List (String × β) → List (String × β)
  | [] => [(k, v)]
  | (k1, v1) :: rest => if k1 = k then (k, v) :: rest else (k1, v1) :: setA k v rest

/-- A per-account bookmark record, e.g. `{"date_start": "2024-01-05"}`,
with the date value parsed. -/
abbrev AccountRecord : Type := List (String × Int)

/-- The singer state's `bookmarks` mapping:
`tap_stream_id -> account_id -> account record`. -/
abbrev TapState : Type := List (String × List (String × AccountRecord))

/-! ## Date-range partitioning (streams.py, `process_account` lines 82-102) -/

/-- The chunking loop of `process_account` (streams.py lines 85-100):
starting at `from_date`, repeatedly emit `(from_date, from_date + 1)`
until `from_date + 1 > untl`, stepping `from_date` by two days so that
consecutive chunks do not overlap.  Returns the emitted chunks together
with the final value of `from_date` (used for the trailing range). -/
def chunk_ranges (from_date untl : Int) : List (Int × Int) × Int :=
  if h : from_date + 1 > untl then ([], from_date)
  else
    let r := chunk_ranges (from_date + 2) untl
    ((from_date, from_date + 1) :: r.1, r.2)
termination_by (untl + 1 - from_date).toNat
decreasing_by
  simp only [not_lt] at h
  omega

/-- The full `time_ranges` computation of `process_account` (streams.py
lines 82-102): for spans strictly longer than one day the interval is
chunked, appending a trailing partial range when the loop's final
`from_date` is still `≤ untl`; otherwise a single range is produced. -/
def time_ranges (since untl : Int) : List (Int × Int) :=
  if untl - since > 1 then
    let r := chunk_ranges since untl
    if r.2 ≤ untl then r.1 ++ [(r.2, untl)] else r.1
  else
    [(since, untl)]

/-! ## Bookmark state (singer collaborator and streams.py lines 234-264) -/

/-- `singer.get_bookmark(state, tap_stream_id, account_id)`: the account's
record under the state's `bookmarks` mapping, `none` when missing. -/
def get_bookmark (state : TapState) (tap_stream_id account_id : String) :
    Option AccountRecord :=
  (lookupA tap_stream_id state).bind (lookupA account_id)

/-- `singer.write_bookmark(state, tap_stream_id, account_id, record)`: sets
`state["bookmarks"][tap_stream_id][account_id] = record` and returns the
state. -/
def write_bookmark (state : TapState) (tap_stream_id account_id : String)
    (record : AccountRecord) : TapState :=
  setA tap_stream_id (setA account_id record ((lookupA tap_stream_id state).getD [])) state

/-- `__advance_bookmark` (streams.py lines 234-264).  A falsy bookmark
(`none`) persists the state unchanged; otherwise the value is normalised
(the isoparse/isoformat round-trip is the identity here) and written under
the account's `date_start` key, replacing the whole account record, then the
state is persisted.  Returns the resulting state together with the snapshot
passed to `singer.write_state`. -/
def advance_bookmark (account_id : String) (state : TapState) (bookmark : Option Int)
    (tap_stream_id : String) : TapState × TapState :=
  match bookmark with
  | none => (state, state)
  | some b =>
      let st := write_bookmark state tap_stream_id account_id [("date_start", b)]
      (st, st)

/-! ## The record-emission loop (streams.py lines 125-139) -/

/-- The per-record bookmark tracking of `process_account` (streams.py lines
125-139).  Each emitted insight is represented by its parsed `date_start`
partition key.  Starting from the current `prev_bookmark` and the 0-based
index `i` of the next record, returns the final `prev_bookmark` together
with the advance calls issued, each tagged with the index of the record
whose emission triggered it. -/
def insights_loop : List Int → Option Int → Nat → Option Int × List (Nat × Int)
  | [], prev, _ => (prev, [])
  | k :: rest, none, i => insights_loop rest (some k) (i + 1)
  | k :: rest, some p, i =>
    if p < k then
      let r := insights_loop rest (some k) (i + 1)
      (r.1, (i, p) :: r.2)
    else
      insights_loop rest (some p) (i + 1)

/-- The bookmark values passed to `__advance_bookmark` during the record
loop of one account run, in order. -/
def account_advances (records : List Int) : List Int :=
  (insights_loop records none 0).2.map Prod.snd

/-- The value of the final advance after all ranges succeed (streams.py
lines 159-162): the last `prev_bookmark`, or `untl` when no record was
emitted at all. -/
def final_advance (records : List Int) (untl : Int) : Int :=
  (insights_loop records none 0).1.getD untl

/-- The state snapshots persisted over one successful account run: the
initial state followed by the state after each advance of the record loop
and after the final advance. -/
def advance_states (account_id : String) (state : TapState) (tap_stream_id : String)
    (records : List Int) (untl : Int) : List TapState :=
  (account_advances records ++ [final_advance records untl]).scanl
    (fun s b => (advance_bookmark account_id s (some b) tap_stream_id).1) state

/-- The `except Exception` handler of `process_account` (streams.py lines
156-158): on any unhandled error while processing the account's ranges the
bookmark is flushed via `__advance_bookmark` with the current
`prev_bookmark` before the error propagates.  Returns the flushed state and
the flushed bookmark value. -/
def error_flush (account_id : String) (state : TapState) (tap_stream_id : String)
    (records : List Int) : TapState × Option Int :=
  let prev := (insights_loop records none 0).1
  ((advance_bookmark account_id state prev tap_stream_id).1, prev)

/-! ## Start-date resolution (streams.py lines 39-44 and 164-186) -/

/-- `__get_start` (streams.py lines 164-186): the persisted bookmark for the
account when the state holds one; otherwise the configured `start_date`;
otherwise `utcnow + 4 weeks`. -/
def get_start (now : Int) (config_start_date : Option Int) (state : TapState)
    (tap_stream_id account_id : String) : Int :=
  let default_date :=
    match config_start_date with
    | some c => c
    | none => now + 28
  if state = [] then default_date
  else
    match get_bookmark state tap_stream_id account_id with
    | none => default_date
    | some [] => default_date
    | some record =>
        match lookupA "date_start" record with
        | none => default_date
        | some current_bookmark => current_bookmark

/-- The start-date adjustment of `process_account` (streams.py lines 39-44)
applied to the resolved start: clamped to `36 * 30` days before now when
the start lies more than `37 * 30` days back (the source counts a "month"
as 30 days), else one day is subtracted. -/
def resolve_start (now : Int) (config_start_date : Option Int) (state : TapState)
    (tap_stream_id account_id : String) : Int :=
  let start_date := get_start now config_start_date state tap_stream_id account_id
  if now - start_date > 37 * 30 then now - 36 * 30 else start_date - 1

/-- The state holds no usable bookmark for the account: the state dict is
falsy, the account record is missing or falsy, or it lacks a `date_start`
value. -/
def no_state_bookmark (state : TapState) (tap_stream_id account_id : String) : Prop :=
  state = [] ∨ get_bookmark state tap_stream_id account_id = none ∨
  get_bookmark state tap_stream_id account_id = some [] ∨
  ∃ record, get_bookmark state tap_stream_id account_id = some record ∧
    lookupA "date_start" record = none

/-! ## Async report job polling (streams.py lines 188-232) -/

/-- Remote `async_status` values of an AdReportRun.  On any other status
string the source loops again without sleeping; those strings are outside
this model. -/
inductive JobStatus
  | notStarted
  | started
  | running
  | completed
  | failed
  | skipped
deriving DecidableEq

/-- One `api_get` observation of the async job: the AdReportRun's `id`,
`async_status` and `async_percent_completion`. -/
structure JobPoll where
  id : Nat
  status : JobStatus
  pct : Nat
deriving DecidableEq

/-- The polling loop of `__run_adreport` (streams.py lines 199-232) run
against a script of successive `api_get` observations.  Returns the
observation at which the loop returned (on `Job Skipped`/`Job Failed` the
job is returned after logging its id and status; on `Job Completed` with
100 percent it is returned as success), together with the number of
`api_get` polls made and the total seconds slept; `none` when the script is
exhausted without the loop terminating. -/
def run_adreport_poll : List JobPoll → Option (JobPoll × Nat × Nat)
  | [] => none
  | j :: rest =>
    if j.status = .skipped ∨ j.status = .failed then some (j, 1, 0)
    else if j.status = .completed ∧ j.pct = 100 then some (j, 1, 0)
    else
      match run_adreport_poll rest with
      | none => none
      | some (r, n, t) => some (r, n + 1, t + 2)

/-! ## The per-range retry loop (streams.py lines 117-155) -/

/-- Outcome of one execution of the submit-and-poll try block for a date
range: either it completes, or it raises a FacebookRequestError with the
given `api_error_code` and `api_error_subcode`. -/
inductive RangeAttempt
  | ok
  | err (code subcode : Int)
deriving DecidableEq

/-- The per-range retry loop of `process_account` (streams.py lines
117-155), run against a script giving the outcome of each successive
execution of the try block (an empty script behaves like an immediately
successful execution).  `attempt` is the loop's retry counter.  Returns the
re-raised error (`none` on success), the number of executions, and the
total seconds slept between attempts. -/
def range_retry_loop : List RangeAttempt → Nat → Option (Int × Int) × Nat × Nat
  | [], _ => (none, 1, 0)
  | .ok :: _, _ => (none, 1, 0)
  | .err c sc :: rest, attempt =>
    if c = 2601 ∧ sc = 1815107 ∧ attempt < 5 then
      let r := range_retry_loop rest (attempt + 1)
      (r.1, r.2.1 + 1, r.2.2 + 20)
    else (some (c, sc), 1, 0)

/-! ## The HTTP retry classifier (client.py lines 13-62 and 156-161) -/

/-- A FacebookRequestError response as inspected by `is_throttle` (client.py
lines 19-62): whether the JSON body carries an `error` object; the error's
`code`, `error_subcode` and `is_transient` fields (defaulting to 0, 0 and
False); and the parsed `x-business-use-case-usage` header when present and
nonempty: per account id, the list of metadata entries, each carrying the
`estimated_time_to_regain_access` value in minutes (`none` when the key is
absent from the entry). -/
structure FBErr where
  has_error_obj : Bool
  code : Int
  error_subcode : Int
  is_transient : Bool
  usage : Option (List (String × List (Option Int)))
deriving DecidableEq

/-- The inner loop of `is_throttle` over one account's metadata entries: the
first entry carrying the `estimated_time_to_regain_access` key decides. -/
def find_wait : List (Option Int) → Option Int
  | [] => none
  | none :: rest => find_wait rest
  | some w :: _ => some w

/-- The outer loop of `is_throttle` over the accounts of the
`x-business-use-case-usage` header. -/
def scan_usage : List (String × List (Option Int)) → Option Int
  | [] => none
  | (_, mds) :: rest =>
    match find_wait mds with
    | some w => some w
    | none => scan_usage rest

/-- `is_throttle` (client.py lines 19-62), used as the `giveup` predicate of
`backoff.on_exception` around `Facebook.__do`: `true` means give up (the
error is surfaced immediately), `false` means retry.  The second component
is the seconds slept inside the classifier (`estimated_time_to_regain_access`
minutes times 60) before returning; every give-up path returns without
sleeping. -/
def is_throttle (e : FBErr) : Bool × Int :=
  if e.has_error_obj = false then (true, 0)
  else if e.is_transient = false then (true, 0)
  else if ¬ ((e.code = 80000 ∨ e.code = 80004 ∨ e.code = 80003) ∧
      e.error_subcode = 2446079) then (false, 0)
  else
    match e.usage with
    | none => (false, 0)
    | some usage =>
      match scan_usage usage with
      | none => (false, 0)
      | some w => if w = 0 then (false, 0) else (false, w * 60)

/-- The retry loop that `backoff.on_exception(backoff.expo, ...,
giveup=is_throttle)` wraps around `Facebook.__do` (client.py lines 156-161),
modelling the backoff library collaborator: on each raised error the giveup
predicate is consulted; giving up re-raises the error, otherwise the wrapper
waits the next value of the shared expo generator (1, 2, 4, ... seconds;
jitter abstracted away) and retries.  No `max_tries` is configured, so the
attempt budget is unbounded.  Input: the scripted outcome of each call
(`none` = success); `n` counts the backoff waits already performed.  Returns
the propagated error (`none` = success), the list of backoff waits
performed, and the list of sleeps performed inside the giveup classifier. -/
def do_with_backoff : List (Option FBErr) → Nat → Option FBErr × List Int × List Int
  | [], _ => (none, [], [])
  | none :: _, _ => (none, [], [])
  | some e :: rest, n =>
    let g := is_throttle e
    if g.1 then (some e, [], [])
    else
      let r := do_with_backoff rest (n + 1)
      (r.1, ((2 : Int) ^ n) :: r.2.1, (if g.2 = 0 then [] else [g.2]) ++ r.2.2)

/-- Modelled from the spec for comparison (claim C7): the same wrapped loop,
except that after a remote-supplied wait the call is retried "with a fresh
backoff state", the cycle "not counting against the exponential-backoff
attempt budget": the expo position resets to zero and no expo wait is
charged for that cycle. -/
def do_with_backoff_fresh : List (Option FBErr) → Nat → Option FBErr × List Int × List Int
  | [], _ => (none, [], [])
  | none :: _, _ => (none, [], [])
  | some e :: rest, n =>
    let g := is_throttle e
    if g.1 then (some e, [], [])
    else if g.2 = 0 then
      let r := do_with_backoff_fresh rest (n + 1)
      (r.1, ((2 : Int) ^ n) :: r.2.1, r.2.2)
    else
      let r := do_with_backoff_fresh rest 0
      (r.1, r.2.1, g.2 :: r.2.2)

theorem chunk_ranges_fin_ge_untl (f u : Int) : u ≤ (chunk_ranges f u).2 := by
  induction f, u using chunk_ranges.induct with
  | case1 f u h => rw [chunk_ranges]; simp only [dif_pos h]; omega
  | case2 f u h ih => rw [chunk_ranges]; simp only [dif_neg h]; exact ih

theorem chunk_ranges_fin_ge_from (f u : Int) : f ≤ (chunk_ranges f u).2 := by
  induction f, u using chunk_ranges.induct with
  | case1 f u h => rw [chunk_ranges]; simp only [dif_pos h]; omega
  | case2 f u h ih => rw [chunk_ranges]; simp only [dif_neg h]; omega

theorem chunk_ranges_fin_le (f u : Int) : (chunk_ranges f u).2 ≤ max f (u + 1) := by
  induction f, u using chunk_ranges.induct with
  | case1 f u h => rw [chunk_ranges]; simp only [dif_pos h]; omega
  | case2 f u h ih =>
      rw [chunk_ranges]; simp only [dif_neg h]
      simp only [not_lt] at h
      omega

theorem chunk_ranges_nil_iff (f u : Int) : (chunk_ranges f u).1 = [] ↔ f + 1 > u := by
  induction f, u using chunk_ranges.induct with
  | case1 f u h => rw [chunk_ranges]; simp only [dif_pos h]; simpa using h
  | case2 f u h ih => rw [chunk_ranges]; simp only [dif_neg h]; simpa using h

theorem chunk_ranges_nil_fin (f u : Int) (h : (chunk_ranges f u).1 = []) :
    (chunk_ranges f u).2 = f := by
  have hg := (chunk_ranges_nil_iff f u).mp h
  rw [chunk_ranges]; simp only [dif_pos hg]

theorem chunk_ranges_spans (f u : Int) :
    ∀ r ∈ (chunk_ranges f u).1, r.2 = r.1 + 1 := by
  induction f, u using chunk_ranges.induct with
  | case1 f u h => rw [chunk_ranges]; simp only [dif_pos h]; simp
  | case2 f u h ih =>
      rw [chunk_ranges]; simp only [dif_neg h]
      intro r hr
      rcases List.mem_cons.mp hr with h1 | h2
      · simp [h1]
      · exact ih r h2

theorem chunk_ranges_head (f u : Int) :
    ∀ r, (chunk_ranges f u).1.head? = some r → r.1 = f := by
  induction f, u using chunk_ranges.induct with
  | case1 f u h => rw [chunk_ranges]; simp only [dif_pos h]; simp
  | case2 f u h ih =>
      rw [chunk_ranges]; simp only [dif_neg h]
      intro r hr
      simp only [List.head?_cons, Option.some.injEq] at hr
      simp [← hr]

theorem chunk_ranges_last (f u : Int) (hne : (chunk_ranges f u).1 ≠ []) :
    (chunk_ranges f u).1.getLast?.map Prod.snd = some ((chunk_ranges f u).2 - 1) := by
  induction f, u using chunk_ranges.induct with
  | case1 f u h => rw [chunk_ranges] at hne ⊢; simp only [dif_pos h] at hne; simp at hne
  | case2 f u h ih =>
      rw [chunk_ranges]; simp only [dif_neg h]
      by_cases hrec : (chunk_ranges (f + 2) u).1 = []
      · have hfin := chunk_ranges_nil_fin (f + 2) u hrec
        simp only [hrec, hfin]
        simp; omega
      · have hih := ih hrec
        obtain ⟨a, l', heq⟩ := List.exists_cons_of_ne_nil hrec
        rw [heq] at hih ⊢
        rw [List.getLast?_cons_cons]
        exact hih

theorem chunk_ranges_chain (f u : Int) :
    List.Chain' (fun a b : Int × Int => b.1 = a.2 + 1) (chunk_ranges f u).1 := by
  induction f, u using chunk_ranges.induct with
  | case1 f u h => rw [chunk_ranges]; simp only [dif_pos h]; simp
  | case2 f u h ih =>
      rw [chunk_ranges]; simp only [dif_neg h]
      refine List.chain'_cons'.mpr ⟨?_, ih⟩
      intro b hb
      have := chunk_ranges_head (f + 2) u b hb
      simp only [this]; omega

theorem chunk_ranges_cover (f u : Int) :
    ∀ d : Int, (∃ r ∈ (chunk_ranges f u).1, r.1 ≤ d ∧ d ≤ r.2) ↔
      (f ≤ d ∧ d ≤ (chunk_ranges f u).2 - 1) := by
  induction f, u using chunk_ranges.induct with
  | case1 f u h =>
      rw [chunk_ranges]; simp only [dif_pos h]
      intro d; simp; omega
  | case2 f u h ih =>
      rw [chunk_ranges]; simp only [dif_neg h]
      intro d
      have hfin := chunk_ranges_fin_ge_from (f + 2) u
      constructor
      · rintro ⟨r, hr, hd1, hd2⟩
        rcases List.mem_cons.mp hr with h1 | h2
        · subst h1; simp only at hd1 hd2; omega
        · have := (ih d).mp ⟨r, h2, hd1, hd2⟩
          omega
      · rintro ⟨hd1, hd2⟩
        by_cases hc : d ≤ f + 1
        · exact ⟨(f, f + 1), List.mem_cons_self _ _, by simp; omega⟩
        · have := (ih d).mpr (by omega)
          rcases this with ⟨r, hr, hd⟩
          exact ⟨r, List.mem_cons_of_mem _ hr, hd⟩

theorem ranges_chain_lt_head :
    ∀ (R : List (Int × Int)), (∀ r ∈ R, r.1 ≤ r.2) →
      List.Chain' (fun a b : Int × Int => b.1 = a.2 + 1) R →
      ∀ b : Int, (∀ h ∈ R.head?, b < h.1) → ∀ s ∈ R, b < s.1 := by
  intro R
  induction R with
  | nil => simp
  | cons r rest ih =>
      intro hs hc b hb s hs'
      have hbr : b < r.1 := hb r rfl
      rcases List.mem_cons.mp hs' with h1 | h2
      · subst h1; exact hbr
      · have hcr := List.chain'_cons'.mp hc
        have hr12 : r.1 ≤ r.2 := hs r (List.mem_cons_self _ _)
        have htail : ∀ s ∈ rest, r.2 < s.1 := by
          apply ih (fun x hx => hs x (List.mem_cons_of_mem _ hx)) hcr.2 r.2
          intro h hh
          have := hcr.1 h hh
          omega
        have := htail s h2
        omega

theorem ranges_pairwise_disjoint :
    ∀ (R : List (Int × Int)), (∀ r ∈ R, r.1 ≤ r.2) →
      List.Chain' (fun a b : Int × Int => b.1 = a.2 + 1) R →
      List.Pairwise (fun a b : Int × Int => a.2 < b.1) R := by
  intro R
  induction R with
  | nil => simp
  | cons r rest ih =>
      intro hs hc
      have hcr := List.chain'_cons'.mp hc
      refine List.pairwise_cons.mpr ⟨?_, ih (fun x hx => hs x (List.mem_cons_of_mem _ hx)) hcr.2⟩
      apply ranges_chain_lt_head rest (fun x hx => hs x (List.mem_cons_of_mem _ hx)) hcr.2 r.2
      intro h hh
      have := hcr.1 h hh
      omega

/-- C4: for every pair of dates `since ≤ untl`, `time_ranges` produces a
nonempty ordered sequence of ranges that starts at `since`, ends at
`untl`, covers `[since, untl]` exactly once (every day in the interval
lies in some range, and the ranges are pairwise disjoint), forms a chain
in which each range's start is the previous range's end plus one day,
with each range spanning at most one day; and if `untl - since ≤ 1` a
single range `[(since, untl)]` is produced without chunking. -/
theorem time_ranges_spec (since untl : Int) (h : since ≤ untl) :
    time_ranges since untl ≠ [] ∧
    (time_ranges since untl).head?.map Prod.fst = some since ∧
    (time_ranges since untl).getLast?.map Prod.snd = some untl ∧
    (∀ r ∈ time_ranges since untl, r.1 ≤ r.2 ∧ r.2 - r.1 ≤ 1) ∧
    List.Chain' (fun a b : Int × Int => b.1 = a.2 + 1) (time_ranges since untl) ∧
    (∀ d : Int, (since ≤ d ∧ d ≤ untl) ↔ ∃ r ∈ time_ranges since untl, r.1 ≤ d ∧ d ≤ r.2) ∧
    List.Pairwise (fun a b : Int × Int => a.2 < b.1) (time_ranges since untl) ∧
    (untl - since ≤ 1 → time_ranges since untl = [(since, untl)]) := by
  by_cases hgt : untl - since > 1
  · have hguard : ¬ since + 1 > untl := by omega
    have hLne : (chunk_ranges since untl).1 ≠ [] := by
      intro hnil
      exact hguard ((chunk_ranges_nil_iff since untl).mp hnil)
    have hfin_ge : untl ≤ (chunk_ranges since untl).2 := chunk_ranges_fin_ge_untl since untl
    have hfin_le : (chunk_ranges since untl).2 ≤ max since (untl + 1) :=
      chunk_ranges_fin_le since untl
    have hfin_le' : (chunk_ranges since untl).2 ≤ untl + 1 := by omega
    have hspans := chunk_ranges_spans since untl
    have hchain := chunk_ranges_chain since untl
    have hcover := chunk_ranges_cover since untl
    have hlast := chunk_ranges_last since untl hLne
    have hhead := chunk_ranges_head since untl
    by_cases hle : (chunk_ranges since untl).2 ≤ untl
    · have hfin : (chunk_ranges since untl).2 = untl := by omega
      have hR : time_ranges since untl =
          (chunk_ranges since untl).1 ++ [((chunk_ranges since untl).2, untl)] := by
        rw [time_ranges, if_pos hgt]
        simp only [hle, if_pos]
      rw [hR, hfin]
      obtain ⟨a, l', hL⟩ := List.exists_cons_of_ne_nil hLne
      have hspans' : ∀ r ∈ (chunk_ranges since untl).1 ++ [((untl : Int), untl)],
          r.1 ≤ r.2 ∧ r.2 - r.1 ≤ 1 := by
        intro r hr
        rcases List.mem_append.mp hr with h1 | h2
        · have := hspans r h1; omega
        · simp at h2; simp [h2]
      have hchain' : List.Chain' (fun a b : Int × Int => b.1 = a.2 + 1)
          ((chunk_ranges since untl).1 ++ [((untl : Int), untl)]) := by
        refine List.chain'_append.mpr ⟨hchain, by simp, ?_⟩
        intro x hx y hy
        simp only [List.head?_cons, Option.mem_def, Option.some.injEq] at hy
        have hx2 : x.2 = (chunk_ranges since untl).2 - 1 := by
          have : (chunk_ranges since untl).1.getLast?.map Prod.snd = some ((chunk_ranges since untl).2 - 1) := hlast
          rw [Option.mem_def] at hx
          rw [hx] at this
          simpa using this
        rw [← hy]
        simp only [hx2, hfin]
        omega
      refine ⟨by simp, ?_, ?_, hspans', hchain', ?_, ?_, by omega⟩
      · rw [hL]
        have : a.1 = since := hhead a (by rw [hL]; rfl)
        simp [this]
      · rw [List.getLast?_concat]; rfl
      · intro d
        constructor
        · rintro ⟨hd1, hd2⟩
          by_cases hdc : d ≤ (chunk_ranges since untl).2 - 1
          · obtain ⟨r, hr, hrd⟩ := (hcover d).mpr ⟨hd1, hdc⟩
            exact ⟨r, List.mem_append_left _ hr, hrd⟩
          · refine ⟨(untl, untl), List.mem_append_right _ (by simp), by simp; omega⟩
        · rintro ⟨r, hr, hd1, hd2⟩
          rcases List.mem_append.mp hr with h1 | h2
          · have := (hcover d).mp ⟨r, h1, hd1, hd2⟩
            omega
          · simp at h2
            subst h2
            simp at hd1 hd2
            omega
      · exact ranges_pairwise_disjoint _ (fun r hr => (hspans' r hr).1) hchain'
    · have hfin : (chunk_ranges since untl).2 = untl + 1 := by omega
      have hR : time_ranges since untl = (chunk_ranges since untl).1 := by
        rw [time_ranges, if_pos hgt]
        simp only [hle, if_neg, ite_false]
      rw [hR]
      obtain ⟨a, l', hL⟩ := List.exists_cons_of_ne_nil hLne
      have hspans' : ∀ r ∈ (chunk_ranges since untl).1, r.1 ≤ r.2 ∧ r.2 - r.1 ≤ 1 := by
        intro r hr; have := hspans r hr; omega
      refine ⟨hLne, ?_, ?_, hspans', hchain, ?_, ?_, by omega⟩
      · rw [hL]
        have : a.1 = since := hhead a (by rw [hL]; rfl)
        simp [this]
      · rw [hlast, hfin]
        simp
      · intro d
        rw [hcover d, hfin]
        omega
      · exact ranges_pairwise_disjoint _ (fun r hr => (hspans' r hr).1) hchain
  · have hR : time_ranges since untl = [(since, untl)] := by
      rw [time_ranges, if_neg hgt]
    rw [hR]
    refine ⟨by simp, by simp, by simp, ?_, by simp, ?_, by simp, fun _ => rfl⟩
    · intro r hr
      simp at hr
      simp [hr]
      omega
    · intro d
      simp

/-- Witness for `time_ranges_spec` at `since = 0`, `untl = 4`. -/
theorem time_ranges_spec_witness :
    (0 : Int) ≤ 4 ∧
    (time_ranges 0 4 ≠ [] ∧
    (time_ranges 0 4).head?.map Prod.fst = some 0 ∧
    (time_ranges 0 4).getLast?.map Prod.snd = some 4 ∧
    (∀ r ∈ time_ranges 0 4, r.1 ≤ r.2 ∧ r.2 - r.1 ≤ 1) ∧
    List.Chain' (fun a b : Int × Int => b.1 = a.2 + 1) (time_ranges 0 4) ∧
    (∀ d : Int, ((0 : Int) ≤ d ∧ d ≤ 4) ↔ ∃ r ∈ time_ranges 0 4, r.1 ≤ d ∧ d ≤ r.2) ∧
    List.Pairwise (fun a b : Int × Int => a.2 < b.1) (time_ranges 0 4) ∧
    ((4 : Int) - 0 ≤ 1 → time_ranges 0 4 = [(0, 4)])) :=
  ⟨by decide, time_ranges_spec 0 4 (by decide)⟩

/-! ## Lemmas about the record-emission loop -/

theorem le_foldl_max : ∀ (ks : List Int) (p : Int), p ≤ ks.foldl max p
  | [], p => le_refl p
  | k :: ks, p => le_trans (le_max_left p k) (le_foldl_max ks (max p k))

theorem insights_loop_prev : ∀ (ks : List Int) (p : Int) (i : Nat),
    (insights_loop ks (some p) i).1 = some (ks.foldl max p) := by
  intro ks
  induction ks with
  | nil => intro p i; rfl
  | cons k ks ih =>
      intro p i
      rw [insights_loop]
      by_cases h : p < k
      · simp only [if_pos h]
        rw [ih k (i + 1), List.foldl_cons, max_eq_right (le_of_lt h)]
      · simp only [if_neg h]
        rw [ih p (i + 1), List.foldl_cons, max_eq_left (le_of_not_lt h)]

theorem insights_loop_head_ge : ∀ (ks : List Int) (p : Int) (i : Nat) (h : Int),
    ((insights_loop ks (some p) i).2.map Prod.snd ++ [ks.foldl max p]).head? = some h →
    p ≤ h := by
  intro ks
  induction ks with
  | nil =>
      intro p i h hh
      simp only [insights_loop, List.map_nil, List.nil_append, List.foldl_nil,
        List.head?_cons, Option.some.injEq] at hh
      omega
  | cons k ks ih =>
      intro p i h hh
      rw [insights_loop] at hh
      by_cases hc : p < k
      · simp only [if_pos hc, List.map_cons, List.cons_append, List.head?_cons,
          Option.some.injEq] at hh
        omega
      · simp only [if_neg hc] at hh
        rw [List.foldl_cons, max_eq_left (le_of_not_lt hc)] at hh
        exact ih p (i + 1) h hh

theorem insights_loop_chain : ∀ (ks : List Int) (p : Int) (i : Nat),
    List.Chain' (· < ·) ((insights_loop ks (some p) i).2.map Prod.snd ++ [ks.foldl max p]) := by
  intro ks
  induction ks with
  | nil =>
      intro p i
      simp [insights_loop]
  | cons k ks ih =>
      intro p i
      rw [insights_loop]
      by_cases hc : p < k
      · simp only [if_pos hc, List.map_cons, List.cons_append, List.foldl_cons,
          max_eq_right (le_of_lt hc)]
        refine List.chain'_cons'.mpr ⟨?_, ih k (i + 1)⟩
        intro h hh
        have hk : k ≤ h := insights_loop_head_ge ks k (i + 1) h hh
        omega
      · simp only [if_neg hc, List.foldl_cons, max_eq_left (le_of_not_lt hc)]
        exact ih p (i + 1)

theorem insights_loop_adv_lt : ∀ (ks : List Int) (p : Int) (i : Nat),
    ∀ v ∈ (insights_loop ks (some p) i).2.map Prod.snd, v < ks.foldl max p := by
  intro ks
  induction ks with
  | nil =>
      intro p i v hv
      simp [insights_loop] at hv
  | cons k ks ih =>
      intro p i v hv
      rw [insights_loop] at hv
      by_cases hc : p < k
      · simp only [if_pos hc, List.map_cons, List.mem_cons] at hv
        rw [List.foldl_cons, max_eq_right (le_of_lt hc)]
        rcases hv with h1 | h2
        · subst h1
          exact lt_of_lt_of_le hc (le_foldl_max ks k)
        · exact ih k (i + 1) v h2
      · simp only [if_neg hc] at hv
        rw [List.foldl_cons, max_eq_left (le_of_not_lt hc)]
        exact ih p (i + 1) v hv

/-- C1: during record emission for an account, with emitted partition keys
`[d1, d1, d2, d2, d3]` (`d1 < d2 < d3`) the engine advances the bookmark to
`d1` exactly when it sees the first record with key `d2` (index 2) and to
`d2` exactly when it sees `d3` (index 4); after all ranges succeed, one
final advance sets the bookmark to the last-seen key `d3`, and when no
records were emitted at all the final advance is `untl`. -/
theorem lagged_advance_spec (d1 d2 d3 u : Int) (h12 : d1 < d2) (h23 : d2 < d3) :
    (insights_loop [d1, d1, d2, d2, d3] none 0).2 = [(2, d1), (4, d2)] ∧
    final_advance [d1, d1, d2, d2, d3] u = d3 ∧
    account_advances [] = [] ∧
    final_advance [] u = u := by
  refine ⟨?_, ?_, rfl, rfl⟩
  · simp [insights_loop, h12, h23]
  · simp [final_advance, insights_loop, h12, h23]

/-- Witness for `lagged_advance_spec` at `d1 = 1`, `d2 = 2`, `d3 = 3`,
`u = 9`. -/
theorem lagged_advance_spec_witness :
    ((1 : Int) < 2 ∧ (2 : Int) < 3) ∧
    ((insights_loop [1, 1, 2, 2, 3] none 0).2 = [(2, 1), (4, 2)] ∧
     final_advance [1, 1, 2, 2, 3] 9 = 3 ∧
     account_advances [] = [] ∧
     final_advance [] 9 = 9) :=
  ⟨⟨by decide, by decide⟩, lagged_advance_spec 1 2 3 9 (by decide) (by decide)⟩

/-- C2 counterexample: the state already holds bookmark day 99 for the
account; per the engine's own start resolution the rerun starts from the
bookmark minus one day (`resolve_start = 98` with `now = 100`) and
re-emits records with keys `[98, 99]`; the advance triggered at the second
record persists 98, strictly below the previously persisted 99 — the
bookmark value persisted for the account decreases. -/
theorem bookmark_monotonic_cex :
    resolve_start 100 none [("insights", [("act_1", [("date_start", 99)])])]
      "insights" "act_1" = 98 ∧
    (advance_states "act_1" [("insights", [("act_1", [("date_start", 99)])])]
        "insights" [98, 99] 100).map
      (fun s => (get_bookmark s "insights" "act_1").bind (lookupA "date_start"))
      = [some 99, some 98, some 99] ∧
    ¬ ((99 : Int) ≤ 98) := by decide

/-- C2 amended: within a single account-processing run the sequence of
bookmark values passed to the advance operation — the record-loop advances
followed by the final advance — is strictly increasing, so the persisted
value never decreases during the run; across the lifetime of the state
store, however, a rerun resuming from a persisted bookmark minus one day
can first persist a value one day below the previous bookmark (see
`bookmark_monotonic_cex`), since `__advance_bookmark` writes
unconditionally. -/
theorem run_advances_monotone (records : List Int) (u : Int) :
    List.Chain' (· < ·) (account_advances records ++ [final_advance records u]) := by
  cases records with
  | nil => simp [account_advances, final_advance, insights_loop]
  | cons k ks =>
      have h1 : account_advances (k :: ks) = (insights_loop ks (some k) 1).2.map Prod.snd := rfl
      have h2 : final_advance (k :: ks) u = ks.foldl max k := by
        show (insights_loop ks (some k) 1).1.getD u = _
        rw [insights_loop_prev ks k 1]
        rfl
      rw [h1, h2]
      exact insights_loop_chain ks k 1

/-- C3 counterexample: after emitting records with keys `[5, 7]` an
unhandled error is raised; the only advance performed so far committed 5,
but the error path flushes `prev_bookmark = 7` — the in-flight key — not
the last-advanced watermark. -/
theorem error_flush_cex :
    (error_flush "act_1" [] "insights" [5, 7]).2 = some 7 ∧
    account_advances [5, 7] = [5] ∧
    ¬ ((error_flush "act_1" [] "insights" [5, 7]).2
        = (account_advances [5, 7]).getLast?) := by decide

/-- C3 amended: on any unhandled error raised after at least one record was
emitted, the engine flushes the account's bookmark with the current
`prev_bookmark` — the running maximum of the emitted partition keys, which
may belong to a partition still in flight — before propagating; every value
advanced before the error is strictly below the flushed value, and the
flushed state is exactly an `advance_bookmark` write of that maximum. -/
theorem error_flush_spec (account_id tap_stream_id : String) (state : TapState)
    (k : Int) (ks : List Int) :
    (error_flush account_id state tap_stream_id (k :: ks)).2 = some (ks.foldl max k) ∧
    (∀ v ∈ account_advances (k :: ks), v < ks.foldl max k) ∧
    (error_flush account_id state tap_stream_id (k :: ks)).1 =
      (advance_bookmark account_id state (some (ks.foldl max k)) tap_stream_id).1 := by
  have hprev : (insights_loop (k :: ks) none 0).1 = some (ks.foldl max k) := by
    show (insights_loop ks (some k) 1).1 = _
    exact insights_loop_prev ks k 1
  refine ⟨hprev, ?_, ?_⟩
  · intro v hv
    exact insights_loop_adv_lt ks k 1 v hv
  · show (advance_bookmark account_id state (insights_loop (k :: ks) none 0).1 tap_stream_id).1 = _
    rw [hprev]

/-- Witness for `error_flush_spec` at concrete inputs. -/
theorem error_flush_spec_witness :
    (error_flush "act_1" [] "insights" [5, 7]).2 = some ([7].foldl max 5) ∧
    (∀ v ∈ account_advances [5, 7], v < [7].foldl max 5) ∧
    (error_flush "act_1" [] "insights" [5, 7]).1 =
      (advance_bookmark "act_1" [] (some ([7].foldl max 5)) "insights").1 :=
  error_flush_spec "act_1" "insights" [] 5 [7]

/-- C10: calling the bookmark-advance operation with a falsy (`None`)
bookmark persists the state exactly as it is and returns it: both the
snapshot passed to `write_state` and the returned state are the input
state, so no stream or account bookmark entry is added, modified or
removed. -/
theorem advance_bookmark_none_frame (account_id tap_stream_id : String) (state : TapState) :
    advance_bookmark account_id state none tap_stream_id = (state, state) := rfl

/-- C5: the poller keeps polling — sleeping 2 seconds — while the status is
Not Started, Started, Running, or Completed with percent below 100; it
terminates as success only at an observation with status Completed and
percent 100; on Failed or Skipped it terminates immediately at that single
poll, returning the failing job with its id and status; in particular, with
observations Running → Completed(60) → Completed(100) it polls exactly
three times, succeeding only at the third. -/
theorem run_adreport_spec :
    (run_adreport_poll [⟨7, JobStatus.running, 0⟩, ⟨7, JobStatus.completed, 60⟩,
        ⟨7, JobStatus.completed, 100⟩] = some (⟨7, JobStatus.completed, 100⟩, 3, 4) ∧
      run_adreport_poll [⟨7, JobStatus.running, 0⟩, ⟨7, JobStatus.completed, 60⟩] = none) ∧
    (∀ (j : JobPoll) (rest : List JobPoll),
      j.status = JobStatus.failed ∨ j.status = JobStatus.skipped →
      run_adreport_poll (j :: rest) = some (j, 1, 0)) ∧
    (∀ (jobs : List JobPoll) (j : JobPoll) (n t : Nat),
      run_adreport_poll jobs = some (j, n, t) →
      (j.status = JobStatus.failed ∨ j.status = JobStatus.skipped) ∨
        (j.status = JobStatus.completed ∧ j.pct = 100)) ∧
    (∀ (j : JobPoll) (rest : List JobPoll),
      (j.status = JobStatus.notStarted ∨ j.status = JobStatus.started ∨
        j.status = JobStatus.running ∨ (j.status = JobStatus.completed ∧ j.pct ≠ 100)) →
      run_adreport_poll (j :: rest) =
        (run_adreport_poll rest).map (fun r => (r.1, r.2.1 + 1, r.2.2 + 2))) := by
  refine ⟨⟨by decide, by decide⟩, ?_, ?_, ?_⟩
  · intro j rest h
    rw [run_adreport_poll, if_pos h.symm]
  · intro jobs
    induction jobs with
    | nil => intro j n t h; simp [run_adreport_poll] at h
    | cons j0 rest ih =>
        intro j n t h
        rw [run_adreport_poll] at h
        by_cases h1 : j0.status = JobStatus.skipped ∨ j0.status = JobStatus.failed
        · rw [if_pos h1] at h
          simp only [Option.some.injEq, Prod.mk.injEq] at h
          rcases h with ⟨hj, _⟩
          subst hj
          left
          tauto
        · rw [if_neg h1] at h
          by_cases h2 : j0.status = JobStatus.completed ∧ j0.pct = 100
          · rw [if_pos h2] at h
            simp only [Option.some.injEq, Prod.mk.injEq] at h
            rcases h with ⟨hj, _⟩
            subst hj
            right
            exact h2
          · rw [if_neg h2] at h
            cases heq : run_adreport_poll rest with
            | none => rw [heq] at h; simp at h
            | some r =>
                obtain ⟨r1, rn, rt⟩ := r
                rw [heq] at h
                simp only [Option.some.injEq, Prod.mk.injEq] at h
                rcases h with ⟨hj, _⟩
                subst hj
                exact ih r1 rn rt heq
  · intro j rest h
    have hn1 : ¬ (j.status = JobStatus.skipped ∨ j.status = JobStatus.failed) := by
      rcases h with h | h | h | ⟨h, _⟩ <;> simp [h]
    have hn2 : ¬ (j.status = JobStatus.completed ∧ j.pct = 100) := by
      rcases h with h | h | h | ⟨h, hp⟩ <;> simp [h]
      exact hp
    rw [run_adreport_poll, if_neg hn1, if_neg hn2]
    cases hr : run_adreport_poll rest with
    | none => rfl
    | some r => obtain ⟨r1, rn, rt⟩ := r; rfl

/-- Witness for `run_adreport_spec`: an immediate failure and one
continue-polling step at concrete observations. -/
theorem run_adreport_spec_witness :
    run_adreport_poll [⟨3, JobStatus.failed, 0⟩] = some (⟨3, JobStatus.failed, 0⟩, 1, 0) ∧
    run_adreport_poll [⟨4, JobStatus.running, 50⟩, ⟨4, JobStatus.completed, 100⟩] =
      (run_adreport_poll [⟨4, JobStatus.completed, 100⟩]).map
        (fun r => (r.1, r.2.1 + 1, r.2.2 + 2)) :=
  ⟨run_adreport_spec.2.1 ⟨3, JobStatus.failed, 0⟩ [] (Or.inl rfl),
   run_adreport_spec.2.2.2 ⟨4, JobStatus.running, 50⟩ [⟨4, JobStatus.completed, 100⟩]
     (Or.inr (Or.inr (Or.inl rfl)))⟩

/-- C6: `__get_start` returns the persisted bookmark for the account when
the state holds one, otherwise the configured start_date, otherwise
`now + 4 weeks` (28 days); then `process_account` applies exactly one
adjustment to the resolved value: if it lies more than `37 * 30` days (37
thirty-day months) before now it is clamped to `36 * 30` days before now,
otherwise one day is subtracted. -/
theorem get_start_spec (now : Int) (config : Option Int) (state : TapState)
    (tap_stream_id account_id : String) :
    (∀ (record : AccountRecord) (v : Int), state ≠ [] →
      get_bookmark state tap_stream_id account_id = some record →
      lookupA "date_start" record = some v →
      get_start now config state tap_stream_id account_id = v) ∧
    (∀ c : Int, config = some c → no_state_bookmark state tap_stream_id account_id →
      get_start now config state tap_stream_id account_id = c) ∧
    (config = none → no_state_bookmark state tap_stream_id account_id →
      get_start now config state tap_stream_id account_id = now + 28) ∧
    (now - get_start now config state tap_stream_id account_id > 37 * 30 →
      resolve_start now config state tap_stream_id account_id = now - 36 * 30) ∧
    (now - get_start now config state tap_stream_id account_id ≤ 37 * 30 →
      resolve_start now config state tap_stream_id account_id =
        get_start now config state tap_stream_id account_id - 1) := by
  refine ⟨?_, ?_, ?_, ?_, ?_⟩
  · intro record v hne hrec hv
    simp only [get_start, if_neg hne, hrec]
    cases record with
    | nil => simp [lookupA] at hv
    | cons r0 rs => simp [hv]
  · intro c hc hno
    subst hc
    rcases hno with h | h | h | ⟨record, hrec, hnone⟩
    · simp [get_start, h]
    · by_cases hne : state = []
      · simp [get_start, hne]
      · simp [get_start, if_neg hne, h]
    · by_cases hne : state = []
      · simp [get_start, hne]
      · simp [get_start, if_neg hne, h]
    · by_cases hne : state = []
      · simp [get_start, hne]
      · cases record with
        | nil => simp [get_start, if_neg hne, hrec]
        | cons r0 rs => simp [get_start, if_neg hne, hrec, hnone]
  · intro hc hno
    subst hc
    rcases hno with h | h | h | ⟨record, hrec, hnone⟩
    · simp [get_start, h]
    · by_cases hne : state = []
      · simp [get_start, hne]
      · simp [get_start, if_neg hne, h]
    · by_cases hne : state = []
      · simp [get_start, hne]
      · simp [get_start, if_neg hne, h]
    · by_cases hne : state = []
      · simp [get_start, hne]
      · cases record with
        | nil => simp [get_start, if_neg hne, hrec]
        | cons r0 rs => simp [get_start, if_neg hne, hrec, hnone]
  · intro hcl
    simp only [resolve_start]
    rw [if_pos hcl]
  · intro hcl
    simp only [resolve_start]
    rw [if_neg (not_lt.mpr hcl)]

/-- Witness for `get_start_spec`: all five resolution and adjustment cases
at concrete inputs. -/
theorem get_start_spec_witness :
    get_start 100 none [("insights", [("act_1", [("date_start", 99)])])]
      "insights" "act_1" = 99 ∧
    get_start 100 (some 50) [] "insights" "act_1" = 50 ∧
    get_start 100 none [] "insights" "act_1" = 100 + 28 ∧
    resolve_start 2000 none [("insights", [("act_1", [("date_start", 99)])])]
      "insights" "act_1" = 2000 - 36 * 30 ∧
    resolve_start 100 none [("insights", [("act_1", [("date_start", 99)])])]
      "insights" "act_1" =
      get_start 100 none [("insights", [("act_1", [("date_start", 99)])])]
        "insights" "act_1" - 1 :=
  ⟨(get_start_spec 100 none _ "insights" "act_1").1 [("date_start", 99)] 99
     (by decide) (by decide) (by decide),
   (get_start_spec 100 (some 50) [] "insights" "act_1").2.1 50 rfl (Or.inl rfl),
   (get_start_spec 100 none [] "insights" "act_1").2.2.1 rfl (Or.inl rfl),
   (get_start_spec 2000 none _ "insights" "act_1").2.2.2.1 (by decide),
   (get_start_spec 100 none _ "insights" "act_1").2.2.2.2 (by decide)⟩

/-- C9: when an execution of the submit-and-poll block raises the transient
signature (code 2601, subcode 1815107) the whole block is retried for the
same range with a fixed 20-second sleep between attempts, up to a cap of 5
retries; a matching error once the cap is reached, or any non-matching
error, is re-raised: five matching failures then success yield 6 executions
and 100 seconds of sleep, six matching failures re-raise the error after
the same five sleeps. -/
theorem range_retry_spec :
    range_retry_loop (List.replicate 5 (RangeAttempt.err 2601 1815107) ++ [RangeAttempt.ok]) 0
      = (none, 6, 100) ∧
    range_retry_loop (List.replicate 6 (RangeAttempt.err 2601 1815107)) 0
      = (some (2601, 1815107), 6, 100) ∧
    (∀ (c sc : Int) (rest : List RangeAttempt) (attempt : Nat),
      ¬ (c = 2601 ∧ sc = 1815107) →
      range_retry_loop (RangeAttempt.err c sc :: rest) attempt = (some (c, sc), 1, 0)) ∧
    (∀ (rest : List RangeAttempt) (attempt : Nat), attempt < 5 →
      range_retry_loop (RangeAttempt.err 2601 1815107 :: rest) attempt =
        (let r := range_retry_loop rest (attempt + 1)
         (r.1, r.2.1 + 1, r.2.2 + 20))) ∧
    (∀ rest : List RangeAttempt,
      range_retry_loop (RangeAttempt.err 2601 1815107 :: rest) 5
        = (some (2601, 1815107), 1, 0)) := by
  refine ⟨by decide, by decide, ?_, ?_, ?_⟩
  · intro c sc rest attempt h
    rw [range_retry_loop, if_neg]
    tauto
  · intro rest attempt h
    rw [range_retry_loop, if_pos ⟨rfl, rfl, h⟩]
  · intro rest
    rw [range_retry_loop, if_neg]
    intro hcon
    exact absurd hcon.2.2 (by omega)

/-- Witness for `range_retry_spec`: a non-matching error, one in-cap retry
step, and the at-cap re-raise, at concrete inputs. -/
theorem range_retry_spec_witness :
    range_retry_loop (RangeAttempt.err 100 33 :: [RangeAttempt.ok]) 0 = (some (100, 33), 1, 0) ∧
    range_retry_loop (RangeAttempt.err 2601 1815107 :: [RangeAttempt.ok]) 2 =
      (let r := range_retry_loop [RangeAttempt.ok] (2 + 1)
       (r.1, r.2.1 + 1, r.2.2 + 20)) ∧
    range_retry_loop (RangeAttempt.err 2601 1815107 :: [RangeAttempt.ok]) 5
      = (some (2601, 1815107), 1, 0) :=
  ⟨range_retry_spec.2.2.1 100 33 [RangeAttempt.ok] 0 (by decide),
   range_retry_spec.2.2.2.1 [RangeAttempt.ok] 2 (by decide),
   range_retry_spec.2.2.2.2 [RangeAttempt.ok]⟩

/-- C7 counterexample: two consecutive transient rate-limit errors (code
80000, subcode 2446079) carrying `estimated_time_to_regain_access = 1`
minute, then success.  The classifier sleeps 60 seconds each time and the
call is retried, but both cycles consume the shared expo progression — the
recorded backoff waits are `[1, 2]` — whereas retrying "with a fresh
backoff state, without counting the cycle against the backoff attempt
budget" (the spec-modelled `do_with_backoff_fresh`) would record none. -/
theorem remote_wait_cex :
    is_throttle ⟨true, 80000, 2446079, true, some [("act_1", [some 1])]⟩ = (false, 60) ∧
    do_with_backoff
      (List.replicate 2 (some ⟨true, 80000, 2446079, true, some [("act_1", [some 1])]⟩)
        ++ [none]) 0
      = (none, [1, 2], [60, 60]) ∧
    do_with_backoff_fresh
      (List.replicate 2 (some ⟨true, 80000, 2446079, true, some [("act_1", [some 1])]⟩)
        ++ [none]) 0
      = (none, [], [60, 60]) ∧
    ¬ (([1, 2] : List Int) = []) := by decide

/-- C7 amended: for a transient error whose code is one of
{80000, 80003, 80004} with subcode 2446079 and whose usage metadata carries
a truthy `estimated_time_to_regain_access` of `m` minutes, the classifier
sleeps `m * 60` seconds and the call is then retried — but under the same
exponential-backoff state: the cycle consumes the next expo wait and
advances the attempt counter (no attempt cap is configured, so retries are
unbounded); when the usage header is absent the error is retried under
normal exponential backoff with no classifier sleep. -/
theorem remote_wait_spec (e : FBErr) (m : Int) (acct : String)
    (rest : List (Option FBErr)) (n : Nat) :
    (e.has_error_obj = true → e.is_transient = true →
      (e.code = 80000 ∨ e.code = 80004 ∨ e.code = 80003) → e.error_subcode = 2446079 →
      e.usage = some [(acct, [some m])] → m ≠ 0 →
      is_throttle e = (false, m * 60) ∧
      do_with_backoff (some e :: rest) n =
        (let r := do_with_backoff rest (n + 1)
         (r.1, ((2 : Int) ^ n) :: r.2.1, m * 60 :: r.2.2))) ∧
    (e.has_error_obj = true → e.is_transient = true →
      (e.code = 80000 ∨ e.code = 80004 ∨ e.code = 80003) → e.error_subcode = 2446079 →
      e.usage = none →
      is_throttle e = (false, 0) ∧
      do_with_backoff (some e :: rest) n =
        (let r := do_with_backoff rest (n + 1)
         (r.1, ((2 : Int) ^ n) :: r.2.1, r.2.2))) := by
  constructor
  · intro h1 h2 h3 h4 h5 h6
    have ht : is_throttle e = (false, m * 60) := by
      rcases h3 with hc | hc | hc <;>
        simp [is_throttle, h1, h2, hc, h4, h5, scan_usage, find_wait, h6]
    refine ⟨ht, ?_⟩
    rw [do_with_backoff]
    simp only [ht]
    have hm60 : ¬ (m * 60 = 0) := by
      intro hz
      exact h6 (by omega)
    simp [hm60]
  · intro h1 h2 h3 h4 h5
    have ht : is_throttle e = (false, 0) := by
      rcases h3 with hc | hc | hc <;>
        simp [is_throttle, h1, h2, hc, h4, h5]
    refine ⟨ht, ?_⟩
    rw [do_with_backoff]
    simp only [ht]
    simp

/-- Witness for `remote_wait_spec`: both cases at concrete errors. -/
theorem remote_wait_spec_witness :
    (is_throttle ⟨true, 80003, 2446079, true, some [("act_1", [some 2])]⟩ = (false, 2 * 60) ∧
      do_with_backoff (some ⟨true, 80003, 2446079, true, some [("act_1", [some 2])]⟩ :: [none]) 0 =
        (let r := do_with_backoff [none] (0 + 1)
         (r.1, ((2 : Int) ^ 0) :: r.2.1, 2 * 60 :: r.2.2))) ∧
    (is_throttle ⟨true, 80004, 2446079, true, none⟩ = (false, 0) ∧
      do_with_backoff (some ⟨true, 80004, 2446079, true, none⟩ :: [none]) 0 =
        (let r := do_with_backoff [none] (0 + 1)
         (r.1, ((2 : Int) ^ 0) :: r.2.1, r.2.2))) :=
  ⟨(remote_wait_spec ⟨true, 80003, 2446079, true, some [("act_1", [some 2])]⟩ 2 "act_1"
      [none] 0).1 rfl rfl (Or.inr (Or.inr rfl)) rfl rfl (by decide),
   (remote_wait_spec ⟨true, 80004, 2446079, true, none⟩ 0 "act_1" [none] 0).2
     rfl rfl (Or.inr (Or.inl rfl)) rfl rfl⟩

/-- C8 counterexample: a non-2xx response whose JSON body carries no error
object.  The classifier returns `true` — give up — so the error is surfaced
immediately with no retry and no backoff wait, even though the next call
would have succeeded; the claim's "classified as retryable and retried
under exponential backoff" does not hold. -/
theorem missing_error_body_cex :
    is_throttle ⟨false, 0, 0, false, none⟩ = (true, 0) ∧
    do_with_backoff [some ⟨false, 0, 0, false, none⟩, none] 0
      = (some ⟨false, 0, 0, false, none⟩, [], []) ∧
    do_with_backoff [none] 0 = (none, [], []) := by decide

/-- C8 amended: a non-2xx response whose JSON body contains no parseable
error object is classified NOT retryable — the giveup predicate returns
true — and the error is surfaced immediately with no retry, exactly as is
a remote error marked non-transient. -/
theorem giveup_spec (e : FBErr) (rest : List (Option FBErr)) (n : Nat)
    (h : e.has_error_obj = false ∨ e.is_transient = false) :
    is_throttle e = (true, 0) ∧
    do_with_backoff (some e :: rest) n = (some e, [], []) := by
  have ht : is_throttle e = (true, 0) := by
    rcases h with h | h
    · rw [is_throttle, if_pos h]
    · rw [is_throttle]
      by_cases h0 : e.has_error_obj = false
      · rw [if_pos h0]
      · rw [if_neg h0, if_pos h]
  refine ⟨ht, ?_⟩
  rw [do_with_backoff]
  simp [ht]

/-- Witness for `giveup_spec`: a missing error body and a non-transient
error at concrete inputs. -/
theorem giveup_spec_witness :
    (is_throttle ⟨false, 0, 0, false, none⟩ = (true, 0) ∧
      do_with_backoff [some ⟨false, 0, 0, false, none⟩] 0
        = (some ⟨false, 0, 0, false, none⟩, [], [])) ∧
    (is_throttle ⟨true, 80000, 2446079, false, none⟩ = (true, 0) ∧
      do_with_backoff [some ⟨true, 80000, 2446079, false, none⟩] 2
        = (some ⟨true, 80000, 2446079, false, none⟩, [], [])) :=
  ⟨giveup_spec ⟨false, 0, 0, false, none⟩ [] 0 (Or.inl rfl),
   giveup_spec ⟨true, 80000, 2446079, false, none⟩ [] 2 (Or.inr rfl)⟩
